import Mathlib

/-!
Verification of the HCP status-aggregation core (package `status`):
`parseLiveResources`, `parseManifestWorkSyncStatus`, `parseMainManifestWork`,
`parseManifestWorkNodePools`, `parseFeedbackValues` and `parseCertificate`.

The Go code consumes raw JSON strings.  We embed each document at the level
of its decoded shape: a raw document is modelled by its decode behaviour
under each of the four Go target structs (`RawDoc` below), `none` standing
for a failed `json.Unmarshal` into that struct.  Go `time.Time` is modelled
by a `Nat` code that is strictly monotone in chronological order, `0` being
the zero time.  Go maps handed to `parseLiveResources` are modelled as
association lists whose order stands for the map's iteration order.
-/

/-- Result of a Go function returning `(T, error)`: either a value or an
error message. -/
inductive PResult (α : Type) where
  | ok : α → PResult α
  | error : String → PResult α
deriving DecidableEq

namespace HCPStatusCore

/- ## Wire and result data shapes (from the Go type declarations) -/

/-- Go `FieldValue`: the typed value of a statusFeedback entry
(`type` is "String" or "Integer"). -/
structure FieldValue where
  type : String
  string : String
  integer : Int
deriving DecidableEq

/-- Go `FeedbackValue`: one named statusFeedback entry. -/
structure FeedbackValue where
  name : String
  fieldValue : FieldValue
deriving DecidableEq

/-- Go `Condition`: a single condition of a HostedCluster or NodePool. -/
structure Condition where
  type : String
  status : String
  reason : String
  message : String
  lastTransitionTime : String
deriving DecidableEq

/-- Go `ManifestWorkSync`: sync status of a single ManifestWork.
`lastSyncTime` is the `time.Time` model (0 = zero time). -/
structure ManifestWorkSync where
  name : String
  applied : Bool
  available : Bool
  lastSyncTime : Nat
deriving DecidableEq

/-- Go `VersionInfo`. -/
structure VersionInfo where
  current : String
  desired : String
  status : String
  image : String
  availableUpdates : List String
deriving DecidableEq

/-- Go `CertificateStatus`; `ready = none` models the nil tri-state pointer. -/
structure CertificateStatus where
  ready : Option Bool
  notAfter : Nat
  renewalTime : Nat
  dnsNames : List String
deriving DecidableEq

/-- Go `NodePoolStatus`. -/
structure NodePoolStatus where
  name : String
  replicas : Int
  version : String
  conditions : List Condition
deriving DecidableEq

/-- Go `HCPStatus` (cluster identity fields are set by the caller and stay
at their zero values inside `parseLiveResources`). -/
structure HCPStatus where
  clusterID : String := ""
  clusterName : String := ""
  clusterState : String := ""
  managementCluster : String := ""
  version : VersionInfo := ⟨"", "", "", "", []⟩
  apiServerCertificate : Option CertificateStatus := none
  ingressCertificate : Option CertificateStatus := none
  manifestWorks : List ManifestWorkSync := []
  hostedClusterConditions : List Condition := []
  nodePools : List NodePoolStatus := []
deriving DecidableEq

/-- Go `mainMWResult`: parsed output of the main ManifestWork. -/
structure mainMWResult where
  conditions : List Condition
  version : VersionInfo
  mgmtCluster : String
  certificate : Option CertificateStatus
deriving DecidableEq

/- ## Decoded document shapes (the anonymous Go structs passed to
`json.Unmarshal` in each parser) -/

/-- The condition triple read by `parseManifestWorkSyncStatus`. -/
structure SyncCondition where
  type : String
  status : String
  lastTransitionTime : String
deriving DecidableEq

/-- Decoded shape for `parseManifestWorkSyncStatus`: `metadata.name` and
`status.conditions`. -/
structure SyncDoc where
  metadataName : String
  conditions : List SyncCondition
deriving DecidableEq

/-- Go `resourceMeta` of one manifest entry. -/
structure ResourceMeta where
  group : String
  kind : String
  name : String
  resource : String
deriving DecidableEq

/-- One entry of `status.resourceStatus.manifests`. -/
structure ManifestEntry where
  resourceMeta : ResourceMeta
  statusFeedbackValues : List FeedbackValue
deriving DecidableEq

/-- Decoded shape for `parseMainManifestWork`: `metadata.labels` (a Go map,
modelled as an association list) and the manifest list. -/
structure MainDoc where
  labels : List (String × String)
  manifests : List ManifestEntry
deriving DecidableEq

/-- Decoded shape for `parseManifestWorkNodePools`: just the manifest list. -/
structure PoolDoc where
  manifests : List ManifestEntry
deriving DecidableEq

/-- A condition of a cert-manager Certificate resource. -/
structure CertCondition where
  type : String
  status : String
deriving DecidableEq

/-- Decoded shape for `parseCertificate`: `spec.dnsNames`,
`status.conditions`, `status.notAfter`, `status.renewalTime` (absent string
fields decode to `""`, Go's zero value). -/
structure CertDoc where
  dnsNames : List String
  conditions : List CertCondition
  notAfter : String
  renewalTime : String
deriving DecidableEq

/-- A raw JSON document, modelled by its decode result under each of the
four anonymous target structs used by the parsers.  A field is `none`
exactly when `json.Unmarshal` of this document into that struct fails
(malformed JSON fails all four; a type mismatch in a field can fail one
struct while the others succeed, since each struct reads different paths). -/
structure RawDoc where
  asSync : Option SyncDoc
  asMain : Option MainDoc
  asPool : Option PoolDoc
  asCert : Option CertDoc
deriving DecidableEq

/-- The `RawDoc` standing for a key absent from the resources map (Go would
yield the empty string, which fails every unmarshal); `parseLiveResources`
only looks up keys taken from the map, so this is never reached. -/
def rawEmpty : RawDoc := ⟨none, none, none, none⟩

/- ## Models of Go standard-library helpers -/

/-- Byte-lexicographic `≤` on char lists; models the string order used by Go
`sort.Strings` (UTF-8 byte order and code-point order agree). -/
def lexLe : List Char → List Char → Bool
  | [], _ => true
  | _ :: _, [] => false
  | a :: as, b :: bs =>
    if a < b then true
    else if b < a then false
    else lexLe as bs

/-- Models Go string comparison (`s1 <= s2` as used by `sort.Strings`). -/
def strLeB (a b : String) : Bool := lexLe a.data b.data

/-- Insert into a sorted list (helper of the sort model). -/
def insertSorted (s : String) : List String → List String
  | [] => [s]
  | t :: ts => if strLeB s t then s :: t :: ts else t :: insertSorted s ts

/-- Models Go `sort.Strings`: on the distinct keys it is applied to, any
correct sort returns the same (unique) sorted arrangement. -/
def sortStrings (l : List String) : List String := l.foldr insertSorted []

/-- Models Go `strings.HasPrefix`. -/
def hasPre (p s : String) : Bool := p.data.isPrefixOf s.data

/-- Split on the first `'-'`; `none` when there is no `'-'`.  Models Go
`strings.SplitN(s, "-", 2)` (whose result has length 2 exactly when a dash
occurs; the second part is everything after the first dash). -/
def splitFirstDash (s : String) : Option (String × String) :=
  (go s.data).map (fun p => (⟨p.1⟩, ⟨p.2⟩))
where
  go : List Char → Option (List Char × List Char)
    | [] => none
    | c :: cs =>
      if c = '-' then some ([], cs)
      else (go cs).map (fun p => (c :: p.1, p.2))

/-- Split a char list on a separator; models Go `strings.Split` (never
returns the empty list). -/
def splitOnChar (sep : Char) : List Char → List (List Char)
  | [] => [[]]
  | c :: cs =>
    match splitOnChar sep cs with
    | [] => [[]]
    | p :: ps => if c = sep then [] :: p :: ps else (c :: p) :: ps

/-- Models Go `strings.Split(s, ",")`. -/
def splitComma (s : String) : List String :=
  (splitOnChar ',' s.data).map (fun l => ⟨l⟩)

/-- Digit value of a char, `none` for non-digits. -/
def digitVal (c : Char) : Option Nat :=
  if c.isDigit then some (c.toNat - 48) else none

/-- Decimal value of a non-empty all-digit char list. -/
def digitsVal : List Char → Option Nat
  | [] => none
  | [c] => digitVal c
  | c :: cs => do
    let hi ← digitVal c
    let lo ← digitsVal cs
    pure (hi * 10 ^ cs.length + lo)

/-- Models Go `strconv.Atoi`: optional sign followed by at least one digit
(64-bit overflow, irrelevant at the magnitudes that occur here, is not
modelled). -/
def atoi (s : String) : Option Int :=
  match s.data with
  | '+' :: rest => (digitsVal rest).map Int.ofNat
  | '-' :: rest => (digitsVal rest).map (fun n => -(n : Int))
  | l => (digitsVal l).map Int.ofNat

/-- Models Go `time.Parse(time.RFC3339, s)`, restricted to the canonical
Zulu form `YYYY-MM-DDTHH:MM:SSZ` (other RFC-3339 variants count as
unparsable).  The returned `Nat` is strictly monotone in chronological
order and is positive for every accepted string, so `0` is the zero time. -/
def parseRFC3339 (s : String) : Option Nat :=
  match s.data with
  | [y1, y2, y3, y4, '-', o1, o2, '-', d1, d2, 'T', h1, h2, ':', n1, n2, ':', e1, e2, 'Z'] => do
    let y ← digitsVal [y1, y2, y3, y4]
    let mo ← digitsVal [o1, o2]
    let d ← digitsVal [d1, d2]
    let h ← digitsVal [h1, h2]
    let n ← digitsVal [n1, n2]
    let e ← digitsVal [e1, e2]
    if 1 ≤ mo ∧ mo ≤ 12 ∧ 1 ≤ d ∧ d ≤ 31 ∧ h ≤ 23 ∧ n ≤ 59 ∧ e ≤ 59 then
      pure (((((y * 13 + mo) * 32 + d) * 24 + h) * 60 + n) * 60 + e)
    else none
  | _ => none

/-- Update an association list at a key, replacing in place or appending;
models a Go map write (key set and lookups are what the code observes). -/
def alUpdate {β : Type} (m : List (String × β)) (k : String) (v : β) : List (String × β) :=
  match m with
  | [] => [(k, v)]
  | (k', v') :: rest => if k = k' then (k, v) :: rest else (k', v') :: alUpdate rest k v


/- ## The feedback flattener (`parseFeedbackValues`) -/

/-- The recognized condition field names (Go `conditionFields` map). -/
def isCondField (s : String) : Bool :=
  s = "Status" || s = "Reason" || s = "Message" || s = "LastTransitionTime"

/-- Prefixes that are not conditions even when the pattern matches
(Go `nonConditionPrefixes` map). -/
def isNonCondPre (s : String) : Bool := s = "Version"

/-- The string rendering of a feedback value (Go: `fv.FieldValue.String`,
replaced by `fmt.Sprintf("%d", fv.FieldValue.Integer)` for integer type). -/
def valOf (fv : FeedbackValue) : String :=
  if fv.fieldValue.type = "Integer" then toString fv.fieldValue.integer else fv.fieldValue.string

/-- A fresh `&Condition{Type: t}`. -/
def freshCond (t : String) : Condition := ⟨t, "", "", "", ""⟩

/-- The `switch field` writing one condition field (Go: the
`case "Status": c.Status = val` chain inside `parseFeedbackValues`). -/
def setCondField (c : Condition) (u : String × String) : Condition :=
  if u.1 = "Status" then { c with status := u.2 }
  else if u.1 = "Reason" then { c with reason := u.2 }
  else if u.1 = "Message" then { c with message := u.2 }
  else if u.1 = "LastTransitionTime" then { c with lastTransitionTime := u.2 }
  else c

/-- Mutable state of the `parseFeedbackValues` loop: `conditionMap` (a Go
map of pointers, modelled as an association list updated in place),
`conditionOrder`, and the `extras` map. -/
structure FBState where
  conditionMap : List (String × Condition)
  conditionOrder : List String
  extras : List (String × String)
deriving DecidableEq

/-- One iteration of the `parseFeedbackValues` loop. -/
def feedbackStep (st : FBState) (fv : FeedbackValue) : FBState :=
  let val := valOf fv
  match splitFirstDash fv.name with
  | some (p, s) =>
    if isCondField s && !(isNonCondPre p) then
      let st :=
        if (st.conditionMap.lookup p).isNone then
          { st with conditionMap := alUpdate st.conditionMap p (freshCond p),
                    conditionOrder := st.conditionOrder ++ [p] }
        else st
      let c := (st.conditionMap.lookup p).getD (freshCond p)
      { st with conditionMap := alUpdate st.conditionMap p (setCondField c (s, val)) }
    else { st with extras := alUpdate st.extras fv.name val }
  | none => { st with extras := alUpdate st.extras fv.name val }

/-- Go `parseFeedbackValues`: groups flat key/value feedback pairs into
`Condition` records (ordered by first appearance of each type) and a map of
non-condition extras. -/
def parseFeedbackValues (values : List FeedbackValue) : List Condition × List (String × String) :=
  let st := values.foldl feedbackStep ⟨[], [], []⟩
  (st.conditionOrder.map (fun t => (st.conditionMap.lookup t).getD (freshCond t)), st.extras)

/- ## The aggregate-sync parser (`parseManifestWorkSyncStatus`) -/

/-- One iteration of the condition loop in `parseManifestWorkSyncStatus`:
state is `(applied, available, mostRecentTime)`. -/
def syncStep (acc : Bool × Bool × Nat) (c : SyncCondition) : Bool × Bool × Nat :=
  let acc :=
    if c.type = "Applied" then (c.status == "True", acc.2.1, acc.2.2)
    else if c.type = "Available" then (acc.1, c.status == "True", acc.2.2)
    else acc
  if c.lastTransitionTime ≠ "" then
    match parseRFC3339 c.lastTransitionTime with
    | some t => if t > acc.2.2 then (acc.1, acc.2.1, t) else acc
    | none => acc
  else acc

/-- Extraction part of Go `parseManifestWorkSyncStatus` (after a successful
unmarshal into `SyncDoc`). -/
def syncStatusOfDoc (d : SyncDoc) : ManifestWorkSync :=
  let acc := d.conditions.foldl syncStep (false, false, 0)
  ⟨d.metadataName, acc.1, acc.2.1, acc.2.2⟩

/-- Go `parseManifestWorkSyncStatus` on a raw document. -/
def parseManifestWorkSyncStatus (raw : RawDoc) : PResult ManifestWorkSync :=
  match raw.asSync with
  | none => .error "invalid JSON"
  | some d => .ok (syncStatusOfDoc d)

/- ## The control-plane parser (`parseMainManifestWork`) -/

/-- The six `Version-*` extras lookups of `parseMainManifestWork`. -/
def updateVersion (version : VersionInfo) (extras : List (String × String)) : VersionInfo :=
  let version :=
    match extras.lookup "Version-Current" with
    | some v => { version with current := v }
    | none => version
  let version :=
    match extras.lookup "Version-Desired" with
    | some v => { version with desired := v }
    | none => version
  let version :=
    match extras.lookup "Version-Status" with
    | some v => { version with status := v }
    | none => version
  let version :=
    match extras.lookup "Version-Image" with
    | some v => { version with image := v }
    | none => version
  match extras.lookup "Version-AvailableUpdates" with
  | some v => if v ≠ "" then { version with availableUpdates := splitComma v } else version
  | none => version

/-- Loop state of `parseMainManifestWork`: the `conditions`, `version` and
`cert` variables. -/
structure MainAcc where
  conditions : List Condition
  version : VersionInfo
  certificate : Option CertificateStatus
deriving DecidableEq

/-- One iteration of the manifest loop in `parseMainManifestWork`
(Go `switch manifest.ResourceMeta.Kind`). -/
def mainStep (acc : MainAcc) (m : ManifestEntry) : MainAcc :=
  if m.resourceMeta.kind = "HostedCluster" then
    let r := parseFeedbackValues m.statusFeedbackValues
    { acc with conditions := r.1, version := updateVersion acc.version r.2 }
  else if m.resourceMeta.kind = "Certificate" then
    { acc with certificate := some ⟨none, 0, 0, []⟩ }
  else acc

/-- Extraction part of Go `parseMainManifestWork` (after a successful
unmarshal into `MainDoc`). -/
def mainMWOfDoc (d : MainDoc) : mainMWResult :=
  let mgmtCluster := (d.labels.lookup "api.openshift.com/management-cluster").getD ""
  let acc := d.manifests.foldl mainStep ⟨[], ⟨"", "", "", "", []⟩, none⟩
  ⟨acc.conditions, acc.version, mgmtCluster, acc.certificate⟩

/-- Go `parseMainManifestWork` on a raw document. -/
def parseMainManifestWork (raw : RawDoc) : PResult mainMWResult :=
  match raw.asMain with
  | none => .error "invalid JSON"
  | some d => .ok (mainMWOfDoc d)

/- ## The worker-pool parser (`parseManifestWorkNodePools`) -/

/-- Construction of one `NodePoolStatus` from a NodePool manifest entry
(the body of the Go loop after the kind filter). -/
def mkNodePool (m : ManifestEntry) : NodePoolStatus :=
  let r := parseFeedbackValues m.statusFeedbackValues
  let np : NodePoolStatus := ⟨m.resourceMeta.name, 0, "", r.1⟩
  let np :=
    match r.2.lookup "Replicas" with
    | some v =>
      match atoi v with
      | some n => { np with replicas := n }
      | none => np
    | none => np
  match r.2.lookup "Version" with
  | some v => { np with version := v }
  | none => np

/-- Extraction part of Go `parseManifestWorkNodePools` (after a successful
unmarshal into `PoolDoc`). -/
def nodePoolsOfDoc (d : PoolDoc) : List NodePoolStatus :=
  d.manifests.foldl
    (fun acc m =>
      if m.resourceMeta.kind ≠ "NodePool" then acc
      else acc ++ [mkNodePool m]) []

/-- Go `parseManifestWorkNodePools` on a raw document. -/
def parseManifestWorkNodePools (raw : RawDoc) : PResult (List NodePoolStatus) :=
  match raw.asPool with
  | none => .error "invalid JSON"
  | some d => .ok (nodePoolsOfDoc d)

/- ## The certificate parser (`parseCertificate`) -/

/-- Extraction part of Go `parseCertificate` (after a successful unmarshal
into `CertDoc`). -/
def certificateOfDoc (d : CertDoc) : CertificateStatus :=
  let ready := d.conditions.foldl
    (fun r c => if c.type = "Ready" then some (c.status == "True") else r) none
  let notAfter :=
    if d.notAfter ≠ "" then
      match parseRFC3339 d.notAfter with
      | some t => t
      | none => 0
    else 0
  let renewalTime :=
    if d.renewalTime ≠ "" then
      match parseRFC3339 d.renewalTime with
      | some t => t
      | none => 0
    else 0
  ⟨ready, notAfter, renewalTime, d.dnsNames⟩

/-- Go `parseCertificate` on a raw document. -/
def parseCertificate (raw : RawDoc) : PResult CertificateStatus :=
  match raw.asCert with
  | none => .error "invalid JSON"
  | some d => .ok (certificateOfDoc d)

/- ## The aggregator (`parseLiveResources`) -/

/-- The sorted `manifest_work-` keys collected by the first pass of
`parseLiveResources`. -/
def manifestWorkKeysOf (resources : List (String × RawDoc)) : List String :=
  sortStrings (((resources.map Prod.fst).filter (fun k => hasPre "manifest_work-" k)))

/-- Raw document at a key of the resources map. -/
def lookupRaw (resources : List (String × RawDoc)) (key : String) : RawDoc :=
  (resources.lookup key).getD rawEmpty

/-- The first `parseLiveResources` loop: sync status of every ManifestWork,
in sorted key order; the first failure aborts with the key in the message. -/
def parseSyncAll (keys : List String) (resources : List (String × RawDoc)) :
    PResult (List ManifestWorkSync) :=
  match keys with
  | [] => .ok []
  | key :: rest =>
    match parseManifestWorkSyncStatus (lookupRaw resources key) with
    | .error e => .error ("failed to parse ManifestWork sync status for " ++ key ++ ": " ++ e)
    | .ok mws =>
      match parseSyncAll rest resources with
      | .error e => .error e
      | .ok tail => .ok (mws :: tail)

/-- The third `parseLiveResources` loop: NodePools of every ManifestWork,
concatenated in sorted key order. -/
def parsePoolsAll (keys : List String) (resources : List (String × RawDoc)) :
    PResult (List NodePoolStatus) :=
  match keys with
  | [] => .ok []
  | key :: rest =>
    match parseManifestWorkNodePools (lookupRaw resources key) with
    | .error e => .error ("failed to parse NodePool from " ++ key ++ ": " ++ e)
    | .ok nodePools =>
      match parsePoolsAll rest resources with
      | .error e => .error e
      | .ok tail => .ok (nodePools ++ tail)

/-- The main-ManifestWork step of `parseLiveResources`: absent key is not an
error; a parse failure is reported without the key name. -/
def parseMainAll (resources : List (String × RawDoc)) (mainMWKey : String) :
    PResult (Option mainMWResult) :=
  match resources.lookup mainMWKey with
  | none => .ok none
  | some raw =>
    match parseMainManifestWork raw with
    | .error e => .error ("failed to parse main ManifestWork: " ++ e)
    | .ok r => .ok (some r)

/-- The ingress-certificate step of `parseLiveResources`: the Go `range`
loop parses the first `certificate-` key in iteration order and breaks. -/
def parseCertAll (resources : List (String × RawDoc)) :
    PResult (Option CertificateStatus) :=
  match resources.find? (fun kv => hasPre "certificate-" kv.1) with
  | none => .ok none
  | some kv =>
    match parseCertificate kv.2 with
    | .error e => .error ("failed to parse ingress certificate: " ++ e)
    | .ok c => .ok (some c)

/-- Go `parseLiveResources`: processes the resources map (association list
in iteration order) and the cluster's internal id into an `HCPStatus`. -/
def parseLiveResources (resources : List (String × RawDoc)) (clusterID : String) :
    PResult HCPStatus :=
  let manifestWorkKeys := manifestWorkKeysOf resources
  let mainMWKey := "manifest_work-" ++ clusterID
  match parseSyncAll manifestWorkKeys resources with
  | .error e => .error e
  | .ok mws =>
    match parseMainAll resources mainMWKey with
    | .error e => .error e
    | .ok mainResult =>
      match parsePoolsAll manifestWorkKeys resources with
      | .error e => .error e
      | .ok nodePools =>
        match parseCertAll resources with
        | .error e => .error e
        | .ok cert =>
          .ok
            { manifestWorks := mws
              hostedClusterConditions := (mainResult.map mainMWResult.conditions).getD []
              version := (mainResult.map mainMWResult.version).getD ⟨"", "", "", "", []⟩
              managementCluster := (mainResult.map mainMWResult.mgmtCluster).getD ""
              apiServerCertificate := (mainResult.bind mainMWResult.certificate)
              nodePools := nodePools
              ingressCertificate := cert }

/- ## Spec-side definitions used to state the claims -/

/-- Distinct elements in order of first appearance, given already-seen
names (spec side: states the first-appearance order of condition types). -/
def firstSeenFrom (seen : List String) : List String → List String
  | [] => []
  | t :: ts => if t ∈ seen then firstSeenFrom seen ts else t :: firstSeenFrom (t :: seen) ts

/-- Distinct elements of a list in order of first appearance. -/
def firstSeen (l : List String) : List String := firstSeenFrom [] l

/-- Spec side: an eligible feedback name split on its first hyphen; the
suffix must be a recognized condition field and the prefix not excluded. -/
def eligSplit (n : String) : Option (String × String) :=
  match splitFirstDash n with
  | some (p, s) => if isCondField s && !(isNonCondPre p) then some (p, s) else none
  | none => none

/-- The condition type an eligible feedback name contributes to. -/
def eligPre (n : String) : Option String := (eligSplit n).map Prod.fst

/-- All `(field, value)` updates a feedback sequence makes to the condition
of type `t`, in input order. -/
def condUpdates (vs : List FeedbackValue) (t : String) : List (String × String) :=
  vs.filterMap (fun fv =>
    match eligSplit fv.name with
    | some (p, s) => if p = t then some (s, valOf fv) else none
    | none => none)

/-- The last value the input assigns to field `f` of the condition of
type `t`. -/
def lastFieldVal (vs : List FeedbackValue) (t f : String) : Option String :=
  ((condUpdates vs t).filterMap (fun u => if u.1 = f then some u.2 else none)).getLast?

/-- The first value the input assigns to field `f` of the condition of
type `t` (the claimed, spec-side reading of the flattener invariant). -/
def firstFieldVal (vs : List FeedbackValue) (t f : String) : Option String :=
  ((condUpdates vs t).filterMap (fun u => if u.1 = f then some u.2 else none)).head?

/-- The condition of type `t` built from last-seen field values (the
corrected reading of the flattener invariant). -/
def condOfLast (vs : List FeedbackValue) (t : String) : Condition :=
  ⟨t, (lastFieldVal vs t "Status").getD "", (lastFieldVal vs t "Reason").getD "",
    (lastFieldVal vs t "Message").getD "", (lastFieldVal vs t "LastTransitionTime").getD ""⟩

/-- Containment of a pattern segment in a char list. -/
def containsSeg (pat : List Char) : List Char → Bool
  | [] => pat.isEmpty
  | c :: cs => pat.isPrefixOf (c :: cs) || containsSeg pat cs

/-- Whether `pat` occurs inside `s` ("the error message names the key"). -/
def strContains (s pat : String) : Bool := containsSeg pat.data s.data

/-- Spec side (C9): the worker-pool record stated through total lookups. -/
def npSpec (m : ManifestEntry) : NodePoolStatus :=
  let r := parseFeedbackValues m.statusFeedbackValues
  ⟨m.resourceMeta.name, ((r.2.lookup "Replicas").bind atoi).getD 0,
    (r.2.lookup "Version").getD "", r.1⟩

/-- Spec side (C10): value of `key` among the extras of the last
HostedCluster manifest entry that provides it. -/
def lastVersionVal (d : MainDoc) (key : String) : Option String :=
  ((d.manifests.filter (fun m => m.resourceMeta.kind == "HostedCluster")).filterMap
    (fun m => (parseFeedbackValues m.statusFeedbackValues).2.lookup key)).getLast?

/-- Spec side (C10): likewise but ignoring empty values (the guard the code
applies to `Version-AvailableUpdates`). -/
def lastVersionValNe (d : MainDoc) (key : String) : Option String :=
  ((d.manifests.filter (fun m => m.resourceMeta.kind == "HostedCluster")).filterMap
    (fun m =>
      match (parseFeedbackValues m.statusFeedbackValues).2.lookup key with
      | some v => if v ≠ "" then some v else none
      | none => none)).getLast?

/-- Spec side (C2): the certificate-stage failure, if any. -/
def certErrSpec (resources : List (String × RawDoc)) : Option String :=
  match resources.find? (fun kv => hasPre "certificate-" kv.1) with
  | some kv =>
    if kv.2.asCert.isNone then some "failed to parse ingress certificate: invalid JSON" else none
  | none => none

/-- Spec side (C2): the first failure among the NodePool and certificate
stages, if any. -/
def poolsErrSpec (keys : List String) (resources : List (String × RawDoc)) : Option String :=
  match keys.find? (fun k => (lookupRaw resources k).asPool.isNone) with
  | some k => some ("failed to parse NodePool from " ++ k ++ ": invalid JSON")
  | none => certErrSpec resources

/-- Spec side (C2): the first failure the aggregator meets, with the exact
message it reports; `none` when every invoked parse succeeds. -/
def firstErrorSpec (resources : List (String × RawDoc)) (clusterID : String) : Option String :=
  match (manifestWorkKeysOf resources).find? (fun k => (lookupRaw resources k).asSync.isNone) with
  | some k => some ("failed to parse ManifestWork sync status for " ++ k ++ ": invalid JSON")
  | none =>
    match resources.lookup ("manifest_work-" ++ clusterID) with
    | some r =>
      if r.asMain.isNone then some "failed to parse main ManifestWork: invalid JSON"
      else poolsErrSpec (manifestWorkKeysOf resources) resources
    | none => poolsErrSpec (manifestWorkKeysOf resources) resources


/- ## Concrete documents used by witnesses and counterexamples -/

/-- A standalone certificate document whose only content is the DNS name
list `["a"]` (realizable as `{"spec":{"dnsNames":["a"]}}`). -/
def certRawA : RawDoc := ⟨none, none, none, some ⟨["a"], [], "", ""⟩⟩

/-- Like `certRawA` with DNS names `["b"]`. -/
def certRawB : RawDoc := ⟨none, none, none, some ⟨["b"], [], "", ""⟩⟩

/-- A well-formed ManifestWork document that decodes under every struct. -/
def mwRawX : RawDoc := ⟨some ⟨"x", []⟩, some ⟨[], []⟩, some ⟨[]⟩, none⟩

/-- A document that decodes as a sync document and as a pool document but
fails to decode as the main document (realizable in Go: a JSON body whose
`metadata.labels` has a non-object type, e.g. `{"metadata":{"labels":5}}`,
is accepted by the sync and pool structs, which ignore that path, and
rejected by the main struct). -/
def mainFailRaw : RawDoc := ⟨some ⟨"", []⟩, none, some ⟨[]⟩, some ⟨[], [], "", ""⟩⟩

/-- A main document with two HostedCluster manifest entries: the first
provides `Version-AvailableUpdates = "4.1,4.2"`, the second provides the
same key with the empty string. -/
def mainDocEx : MainDoc :=
  ⟨[],
    [⟨⟨"", "HostedCluster", "hc1", ""⟩,
        [⟨"Version-AvailableUpdates", ⟨"String", "4.1,4.2", 0⟩⟩]⟩,
      ⟨⟨"", "HostedCluster", "hc2", ""⟩,
        [⟨"Version-AvailableUpdates", ⟨"String", "", 0⟩⟩]⟩]⟩


end HCPStatusCore

namespace HCPStatusCore

/- ## Association list and lookup lemmas -/

theorem lookup_nil {β : Type} (k : String) : List.lookup k ([] : List (String × β)) = none := rfl

theorem lookup_cons {β : Type} (k a : String) (b : β) (es : List (String × β)) :
    List.lookup k ((a, b) :: es) = if k = a then some b else List.lookup k es := by
  by_cases h : k = a
  · simp [List.lookup, h]
  · have hb : (k == a) = false := by simp [h]
    simp [List.lookup, hb, h]

theorem lookup_eq_none_iff {β : Type} (k : String) (l : List (String × β)) :
    List.lookup k l = none ↔ k ∉ l.map Prod.fst := by
  induction l with
  | nil => simp [lookup_nil]
  | cons kv rest ih =>
    obtain ⟨a, b⟩ := kv
    rw [lookup_cons]
    by_cases h : k = a <;> simp [h, ih]

theorem lookup_alUpdate_self {β : Type} (m : List (String × β)) (k : String) (v : β) :
    List.lookup k (alUpdate m k v) = some v := by
  induction m with
  | nil => simp [alUpdate, lookup_cons]
  | cons kv rest ih =>
    obtain ⟨a, b⟩ := kv
    simp only [alUpdate]
    by_cases h : k = a <;> simp [h, lookup_cons, ih]

theorem lookup_alUpdate_ne {β : Type} (m : List (String × β)) (k k' : String) (v : β)
    (h : k' ≠ k) : List.lookup k' (alUpdate m k v) = List.lookup k' m := by
  induction m with
  | nil => simp [alUpdate, lookup_cons, h]
  | cons kv rest ih =>
    obtain ⟨a, b⟩ := kv
    simp only [alUpdate]
    by_cases hka : k = a
    · subst hka
      rw [if_pos rfl, lookup_cons, lookup_cons, if_neg h, if_neg h]
    · rw [if_neg hka, lookup_cons, lookup_cons]
      by_cases hk'a : k' = a
      · simp [hk'a]
      · simp [hk'a, ih]

theorem map_fst_alUpdate_mem {β : Type} (m : List (String × β)) (k : String) (v : β)
    (h : k ∈ m.map Prod.fst) : (alUpdate m k v).map Prod.fst = m.map Prod.fst := by
  induction m with
  | nil => simp at h
  | cons kv rest ih =>
    obtain ⟨a, b⟩ := kv
    simp only [alUpdate]
    by_cases hka : k = a
    · simp [hka]
    · simp only [List.map_cons, List.mem_cons] at h
      rcases h with h | h
      · exact absurd h hka
      · simp [alUpdate, hka, ih h]

theorem map_fst_alUpdate_not_mem {β : Type} (m : List (String × β)) (k : String) (v : β)
    (h : k ∉ m.map Prod.fst) : (alUpdate m k v).map Prod.fst = m.map Prod.fst ++ [k] := by
  induction m with
  | nil => simp [alUpdate]
  | cons kv rest ih =>
    obtain ⟨a, b⟩ := kv
    simp only [List.map_cons, List.mem_cons, not_or] at h
    simp [alUpdate, h.1, ih h.2]

theorem find?_eq_head?_filter {α : Type} (p : α → Bool) (l : List α) :
    l.find? p = (l.filter p).head? := by
  induction l with
  | nil => rfl
  | cons x xs ih =>
    cases h : p x
    · rw [List.find?_cons_of_neg _ (by simp [h]), List.filter_cons, if_neg (by simp [h]), ih]
    · rw [List.find?_cons_of_pos _ h, List.filter_cons, if_pos h, List.head?_cons]

/-- Map lookups are iteration-order independent: permuted association lists
with distinct keys agree on every lookup. -/
theorem lookup_eq_of_perm {β : Type} {l₁ l₂ : List (String × β)} (h : l₁.Perm l₂)
    (hnd : (l₁.map Prod.fst).Nodup) (k : String) : List.lookup k l₁ = List.lookup k l₂ := by
  induction h with
  | nil => rfl
  | cons x h ih =>
    obtain ⟨a, b⟩ := x
    simp only [List.map_cons, List.nodup_cons] at hnd
    rw [lookup_cons, lookup_cons, ih hnd.2]
  | swap x y l =>
    obtain ⟨a, b⟩ := y
    obtain ⟨c, d⟩ := x
    have hac : a ≠ c := by
      simp only [List.map_cons, List.nodup_cons, List.mem_cons, not_or] at hnd
      exact hnd.1.1
    rw [lookup_cons, lookup_cons, lookup_cons, lookup_cons]
    by_cases hka : k = a <;> by_cases hkc : k = c
    · exact absurd (hka.symm.trans hkc) hac
    · subst hka
      rw [if_pos rfl, if_neg hkc, if_pos rfl]
    · subst hkc
      rw [if_neg hka, if_pos rfl, if_pos rfl]
    · rw [if_neg hka, if_neg hkc, if_neg hkc, if_neg hka]
  | trans h₁ h₂ ih₁ ih₂ =>
    rw [ih₁ hnd, ih₂ ((h₁.map Prod.fst).nodup hnd)]

end HCPStatusCore

namespace HCPStatusCore

/- ## Lexicographic order lemmas and determinism of the sort model -/

theorem lexLe_cons_iff (a b : Char) (as bs : List Char) :
    lexLe (a :: as) (b :: bs) = true ↔ a < b ∨ (a = b ∧ lexLe as bs = true) := by
  by_cases h1 : a < b
  · simp [lexLe, h1]
  · by_cases h2 : b < a
    · have : a ≠ b := ne_of_gt h2
      simp [lexLe, h1, h2, this]
    · have : a = b := le_antisymm (not_lt.mp h2) (not_lt.mp h1)
      simp [lexLe, h1, h2, this]

theorem lexLe_total (a b : List Char) : lexLe a b = true ∨ lexLe b a = true := by
  induction a generalizing b with
  | nil => left; rfl
  | cons x xs ih =>
    cases b with
    | nil => right; rfl
    | cons y ys =>
      rcases lt_trichotomy x y with h | h | h
      · left; rw [lexLe_cons_iff]; exact Or.inl h
      · subst h
        rcases ih ys with h | h
        · left; rw [lexLe_cons_iff]; exact Or.inr ⟨rfl, h⟩
        · right; rw [lexLe_cons_iff]; exact Or.inr ⟨rfl, h⟩
      · right; rw [lexLe_cons_iff]; exact Or.inl h

theorem lexLe_antisymm {a b : List Char} (h1 : lexLe a b = true) (h2 : lexLe b a = true) :
    a = b := by
  induction a generalizing b with
  | nil =>
    cases b with
    | nil => rfl
    | cons y ys => simp [lexLe] at h2
  | cons x xs ih =>
    cases b with
    | nil => simp [lexLe] at h1
    | cons y ys =>
      rw [lexLe_cons_iff] at h1 h2
      rcases h1 with h1 | ⟨he1, h1⟩
      · rcases h2 with h2 | ⟨he2, h2⟩
        · exact absurd h2 (asymm h1)
        · subst he2
          exact absurd h1 (lt_irrefl _)
      · subst he1
        rcases h2 with h2 | ⟨_, h2⟩
        · exact absurd h2 (lt_irrefl _)
        · rw [ih h1 h2]

theorem lexLe_trans {a b c : List Char} (h1 : lexLe a b = true) (h2 : lexLe b c = true) :
    lexLe a c = true := by
  induction a generalizing b c with
  | nil => rfl
  | cons x xs ih =>
    cases b with
    | nil => simp [lexLe] at h1
    | cons y ys =>
      cases c with
      | nil => simp [lexLe] at h2
      | cons z zs =>
        rw [lexLe_cons_iff] at h1 h2 ⊢
        rcases h1 with h1 | ⟨rfl, h1⟩
        · rcases h2 with h2 | ⟨rfl, h2⟩
          · exact Or.inl (lt_trans h1 h2)
          · exact Or.inl h1
        · rcases h2 with h2 | ⟨rfl, h2⟩
          · exact Or.inl h2
          · exact Or.inr ⟨rfl, ih h1 h2⟩

theorem strLeB_total (a b : String) : strLeB a b = true ∨ strLeB b a = true :=
  lexLe_total a.data b.data

theorem strLeB_antisymm {a b : String} (h1 : strLeB a b = true) (h2 : strLeB b a = true) :
    a = b := by
  cases a; cases b
  exact congrArg String.mk (lexLe_antisymm h1 h2)

theorem strLeB_trans {a b c : String} (h1 : strLeB a b = true) (h2 : strLeB b c = true) :
    strLeB a c = true :=
  lexLe_trans h1 h2

/-- The sorting relation of the sort model. -/
def strLeR (a b : String) : Prop := strLeB a b = true

instance : IsAntisymm String strLeR := ⟨fun _ _ => strLeB_antisymm⟩

instance : IsTrans String strLeR := ⟨fun _ _ _ => strLeB_trans⟩

instance : IsTotal String strLeR := ⟨fun a b => strLeB_total a b⟩

theorem perm_insertSorted (s : String) (l : List String) :
    (insertSorted s l).Perm (s :: l) := by
  induction l with
  | nil => exact List.Perm.refl _
  | cons t ts ih =>
    simp only [insertSorted]
    by_cases h : strLeB s t = true
    · rw [if_pos h]
    · rw [if_neg h]
      exact (ih.cons t).trans (List.Perm.swap s t ts)

theorem perm_sortStrings (l : List String) : (sortStrings l).Perm l := by
  induction l with
  | nil => exact List.Perm.refl _
  | cons x xs ih =>
    exact (perm_insertSorted x (sortStrings xs)).trans (ih.cons x)

theorem sorted_insertSorted (s : String) (l : List String) (h : l.Sorted strLeR) :
    (insertSorted s l).Sorted strLeR := by
  induction l with
  | nil => simp [insertSorted, List.Sorted]
  | cons t ts ih =>
    rw [List.sorted_cons] at h
    simp only [insertSorted]
    by_cases hst : strLeB s t = true
    · rw [if_pos hst, List.sorted_cons]
      refine ⟨?_, by rw [List.sorted_cons]; exact h⟩
      intro b hb
      rcases List.mem_cons.mp hb with rfl | hb
      · exact hst
      · exact strLeB_trans hst (h.1 b hb)
    · rw [if_neg hst, List.sorted_cons]
      have hts : strLeR t s := (strLeB_total s t).resolve_left hst
      refine ⟨?_, ih h.2⟩
      intro b hb
      have := (perm_insertSorted s ts).mem_iff.mp hb
      rcases List.mem_cons.mp this with rfl | hbts
      · exact hts
      · exact h.1 b hbts

theorem sorted_sortStrings (l : List String) : (sortStrings l).Sorted strLeR := by
  induction l with
  | nil => simp [sortStrings, List.Sorted]
  | cons x xs ih => exact sorted_insertSorted x (sortStrings xs) ih

/-- The sort model is iteration-order independent: permutations sort to the
same list. -/
theorem sortStrings_eq_of_perm {l₁ l₂ : List String} (h : l₁.Perm l₂) :
    sortStrings l₁ = sortStrings l₂ :=
  List.eq_of_perm_of_sorted
    ((perm_sortStrings l₁).trans (h.trans (perm_sortStrings l₂).symm))
    (sorted_sortStrings l₁) (sorted_sortStrings l₂)

end HCPStatusCore

namespace HCPStatusCore

/- ## Iteration-order independence of the aggregator stages -/

theorem eq_of_perm_of_length_le_one {α : Type} {l₁ l₂ : List α} (h : l₁.Perm l₂)
    (hl : l₁.length ≤ 1) : l₁ = l₂ := by
  cases l₁ with
  | nil => exact (List.Perm.eq_nil h.symm).symm
  | cons a t =>
    cases t with
    | nil => exact (List.perm_singleton.mp h.symm).symm
    | cons b u => simp at hl

theorem manifestWorkKeysOf_eq_of_perm {l₁ l₂ : List (String × RawDoc)} (h : l₁.Perm l₂) :
    manifestWorkKeysOf l₁ = manifestWorkKeysOf l₂ :=
  sortStrings_eq_of_perm ((h.map Prod.fst).filter (fun k => hasPre "manifest_work-" k))

theorem lookupRaw_eq_of_perm {l₁ l₂ : List (String × RawDoc)} (h : l₁.Perm l₂)
    (hnd : (l₁.map Prod.fst).Nodup) (k : String) : lookupRaw l₁ k = lookupRaw l₂ k := by
  unfold lookupRaw
  rw [lookup_eq_of_perm h hnd k]

theorem parseSyncAll_congr (keys : List String) {l₁ l₂ : List (String × RawDoc)}
    (h : ∀ k, lookupRaw l₁ k = lookupRaw l₂ k) :
    parseSyncAll keys l₁ = parseSyncAll keys l₂ := by
  induction keys with
  | nil => rfl
  | cons key rest ih =>
    simp only [parseSyncAll, h key, ih]

theorem parsePoolsAll_congr (keys : List String) {l₁ l₂ : List (String × RawDoc)}
    (h : ∀ k, lookupRaw l₁ k = lookupRaw l₂ k) :
    parsePoolsAll keys l₁ = parsePoolsAll keys l₂ := by
  induction keys with
  | nil => rfl
  | cons key rest ih =>
    simp only [parsePoolsAll, h key, ih]

theorem parseMainAll_eq_of_perm {l₁ l₂ : List (String × RawDoc)} (h : l₁.Perm l₂)
    (hnd : (l₁.map Prod.fst).Nodup) (mainMWKey : String) :
    parseMainAll l₁ mainMWKey = parseMainAll l₂ mainMWKey := by
  unfold parseMainAll
  rw [lookup_eq_of_perm h hnd mainMWKey]

theorem parseCertAll_eq_of_perm {l₁ l₂ : List (String × RawDoc)} (h : l₁.Perm l₂)
    (hcert : (l₁.filter (fun kv => hasPre "certificate-" kv.1)).length ≤ 1) :
    parseCertAll l₁ = parseCertAll l₂ := by
  unfold parseCertAll
  rw [find?_eq_head?_filter, find?_eq_head?_filter,
    eq_of_perm_of_length_le_one (h.filter (fun kv => hasPre "certificate-" kv.1)) hcert]

/-- The aggregator is independent of the map-iteration order whenever at
most one key carries the `certificate-` prefix. -/
theorem parseLiveResources_eq_of_perm {l₁ l₂ : List (String × RawDoc)} (cid : String)
    (hperm : l₁.Perm l₂) (hnd : (l₁.map Prod.fst).Nodup)
    (hcert : (l₁.filter (fun kv => hasPre "certificate-" kv.1)).length ≤ 1) :
    parseLiveResources l₁ cid = parseLiveResources l₂ cid := by
  unfold parseLiveResources
  dsimp only
  rw [manifestWorkKeysOf_eq_of_perm hperm,
    parseSyncAll_congr _ (fun k => lookupRaw_eq_of_perm hperm hnd k),
    parseMainAll_eq_of_perm hperm hnd,
    parsePoolsAll_congr _ (fun k => lookupRaw_eq_of_perm hperm hnd k),
    parseCertAll_eq_of_perm hperm hcert]

end HCPStatusCore

namespace HCPStatusCore

/- ## Characterization of the feedback flattener -/

theorem alUpdate_alUpdate {β : Type} (m : List (String × β)) (k : String) (v w : β) :
    alUpdate (alUpdate m k v) k w = alUpdate m k w := by
  induction m with
  | nil => simp [alUpdate]
  | cons kv rest ih =>
    obtain ⟨a, b⟩ := kv
    by_cases h : k = a
    · simp [alUpdate, h]
    · simp [alUpdate, h, ih]

theorem firstSeenFrom_congr {seen₁ seen₂ : List String}
    (h : ∀ x, x ∈ seen₁ ↔ x ∈ seen₂) (l : List String) :
    firstSeenFrom seen₁ l = firstSeenFrom seen₂ l := by
  induction l generalizing seen₁ seen₂ with
  | nil => rfl
  | cons t ts ih =>
    simp only [firstSeenFrom]
    by_cases hm : t ∈ seen₁
    · rw [if_pos hm, if_pos ((h t).mp hm), ih h]
    · rw [if_neg hm, if_neg (fun hc => hm ((h t).mpr hc)), ih]
      intro x
      simp only [List.mem_cons]
      exact or_congr Iff.rfl (h x)

theorem condUpdates_cons_elig {fv : FeedbackValue} {p s : String}
    (h : eligSplit fv.name = some (p, s)) (vs : List FeedbackValue) (t : String) :
    condUpdates (fv :: vs) t =
      if p = t then (s, valOf fv) :: condUpdates vs t else condUpdates vs t := by
  simp only [condUpdates, List.filterMap_cons, h]
  by_cases hpt : p = t <;> simp [hpt]

theorem condUpdates_cons_inelig {fv : FeedbackValue}
    (h : eligSplit fv.name = none) (vs : List FeedbackValue) (t : String) :
    condUpdates (fv :: vs) t = condUpdates vs t := by
  simp only [condUpdates, List.filterMap_cons, h]

theorem eligPre_eq_some {n p s : String} (h : eligSplit n = some (p, s)) :
    eligPre n = some p := by
  simp [eligPre, h]

theorem eligPre_eq_none {n : String} (h : eligSplit n = none) : eligPre n = none := by
  simp [eligPre, h]

/-- Unfolding of `feedbackStep` on an eligible entry. -/
theorem feedbackStep_elig {fv : FeedbackValue} {p s : String}
    (h : eligSplit fv.name = some (p, s)) (st : FBState) :
    feedbackStep st fv =
      match st.conditionMap.lookup p with
      | none =>
        ⟨alUpdate st.conditionMap p (setCondField (freshCond p) (s, valOf fv)),
          st.conditionOrder ++ [p], st.extras⟩
      | some c =>
        ⟨alUpdate st.conditionMap p (setCondField c (s, valOf fv)),
          st.conditionOrder, st.extras⟩ := by
  simp only [eligSplit] at h
  rcases hd : splitFirstDash fv.name with _ | ⟨q, r⟩
  · rw [hd] at h
    exact absurd h (by simp)
  · rw [hd] at h
    dsimp only at h
    by_cases hc : (isCondField r && !(isNonCondPre q)) = true
    · rw [if_pos hc] at h
      have hq : p = q := (congrArg Prod.fst (Option.some.inj h)).symm
      have hs : s = r := (congrArg Prod.snd (Option.some.inj h)).symm
      subst hq
      subst hs
      simp only [feedbackStep, hd, hc, if_pos]
      rcases hl : st.conditionMap.lookup p with _ | c
      · simp only [hl, Option.isNone_none, if_pos, lookup_alUpdate_self, Option.getD_some,
          alUpdate_alUpdate]
      · simp only [hl, Option.isNone_some, Bool.false_eq_true, if_false, Option.getD_some]
    · rw [if_neg hc] at h
      exact absurd h (by simp)

/-- Unfolding of `feedbackStep` on a non-condition entry. -/
theorem feedbackStep_inelig {fv : FeedbackValue}
    (h : eligSplit fv.name = none) (st : FBState) :
    feedbackStep st fv = { st with extras := alUpdate st.extras fv.name (valOf fv) } := by
  simp only [eligSplit] at h
  rcases hd : splitFirstDash fv.name with _ | ⟨q, r⟩
  · simp only [feedbackStep, hd]
  · rw [hd] at h
    dsimp only at h
    by_cases hc : (isCondField r && !(isNonCondPre q)) = true
    · rw [if_pos hc] at h
      exact absurd h (by simp)
    · simp only [feedbackStep, hd]
      rw [if_neg hc]

/-- Master characterization of the `parseFeedbackValues` loop state:
key list = condition order; order = first-appearance order of eligible
prefixes; per-type conditions = the fold of that type's field updates;
extras keys = first-appearance order of non-condition names. -/
theorem feedbackFold_char (vs : List FeedbackValue) (st : FBState)
    (hmap : st.conditionMap.map Prod.fst = st.conditionOrder) :
    (vs.foldl feedbackStep st).conditionMap.map Prod.fst
        = (vs.foldl feedbackStep st).conditionOrder
      ∧ (vs.foldl feedbackStep st).conditionOrder
          = st.conditionOrder
              ++ firstSeenFrom st.conditionOrder (vs.filterMap fun x => eligPre x.name)
      ∧ (∀ t, (vs.foldl feedbackStep st).conditionMap.lookup t =
          match st.conditionMap.lookup t with
          | some c => some ((condUpdates vs t).foldl setCondField c)
          | none =>
            match condUpdates vs t with
            | [] => none
            | u :: us => some ((u :: us).foldl setCondField (freshCond t)))
      ∧ (vs.foldl feedbackStep st).extras.map Prod.fst
          = st.extras.map Prod.fst ++ firstSeenFrom (st.extras.map Prod.fst)
              (vs.filterMap fun x => if eligSplit x.name = none then some x.name else none) := by
  induction vs generalizing st with
  | nil =>
    refine ⟨hmap, by simp [firstSeenFrom], fun t => ?_, by simp [firstSeenFrom]⟩
    cases hl : st.conditionMap.lookup t <;> simp [hl, condUpdates]
  | cons fv vs ih =>
    simp only [List.foldl_cons]
    rcases hsplit : eligSplit fv.name with _ | ⟨p, s⟩
    · have hstep := feedbackStep_inelig hsplit st
      have hmap₁ : (feedbackStep st fv).conditionMap.map Prod.fst
          = (feedbackStep st fv).conditionOrder := by
        rw [hstep]
        exact hmap
      obtain ⟨ih1, ih2, ih3, ih4⟩ := ih (feedbackStep st fv) hmap₁
      refine ⟨ih1, ?_, fun t => ?_, ?_⟩
      · rw [ih2, hstep]
        simp only [List.filterMap_cons, eligPre_eq_none hsplit]
      · rw [ih3 t, hstep, condUpdates_cons_inelig hsplit vs t]
        rfl
      · rw [ih4, hstep]
        simp only [List.filterMap_cons, if_pos hsplit]
        by_cases hm : fv.name ∈ st.extras.map Prod.fst
        · rw [map_fst_alUpdate_mem _ _ _ hm]
          simp only [firstSeenFrom, if_pos hm]
        · rw [map_fst_alUpdate_not_mem _ _ _ hm]
          simp only [firstSeenFrom, if_neg hm]
          have hcg : firstSeenFrom (st.extras.map Prod.fst ++ [fv.name])
              (vs.filterMap fun x => if eligSplit x.name = none then some x.name else none)
              = firstSeenFrom (fv.name :: st.extras.map Prod.fst)
                (vs.filterMap fun x => if eligSplit x.name = none then some x.name else none) :=
            firstSeenFrom_congr (fun x => by simp [or_comm]) _
          rw [hcg, List.append_assoc, List.singleton_append]
    · have hstep := feedbackStep_elig hsplit st
      rcases hl : st.conditionMap.lookup p with _ | c
      · rw [hl] at hstep
        dsimp only at hstep
        have hpn : p ∉ st.conditionOrder := by
          rw [← hmap]
          exact (lookup_eq_none_iff p st.conditionMap).mp hl
        have hmap₁ : (feedbackStep st fv).conditionMap.map Prod.fst
            = (feedbackStep st fv).conditionOrder := by
          rw [hstep]
          show (alUpdate st.conditionMap p _).map Prod.fst = st.conditionOrder ++ [p]
          rw [map_fst_alUpdate_not_mem _ _ _ (by rw [hmap]; exact hpn), hmap]
        obtain ⟨ih1, ih2, ih3, ih4⟩ := ih (feedbackStep st fv) hmap₁
        refine ⟨ih1, ?_, fun t => ?_, ?_⟩
        · rw [ih2, hstep]
          simp only [List.filterMap_cons, eligPre_eq_some hsplit]
          simp only [firstSeenFrom, if_neg hpn]
          have hcg : firstSeenFrom (st.conditionOrder ++ [p])
              (vs.filterMap fun x => eligPre x.name)
              = firstSeenFrom (p :: st.conditionOrder)
                (vs.filterMap fun x => eligPre x.name) :=
            firstSeenFrom_congr (fun x => by simp [or_comm]) _
          rw [hcg, List.append_assoc, List.singleton_append]
        · rw [ih3 t, hstep]
          simp only [condUpdates_cons_elig hsplit vs t]
          by_cases hpt : p = t
          · subst hpt
            rw [if_pos rfl]
            simp only [lookup_alUpdate_self, hl, List.foldl_cons]
          · rw [if_neg hpt]
            simp only [lookup_alUpdate_ne _ _ _ _ (Ne.symm hpt)]
            rfl
        · rw [ih4, hstep]
          simp [List.filterMap_cons, hsplit]
      · rw [hl] at hstep
        dsimp only at hstep
        have hpmem : p ∈ st.conditionOrder := by
          rw [← hmap]
          by_contra hc
          rw [(lookup_eq_none_iff p st.conditionMap).mpr hc] at hl
          exact Option.noConfusion hl
        have hmap₁ : (feedbackStep st fv).conditionMap.map Prod.fst
            = (feedbackStep st fv).conditionOrder := by
          rw [hstep]
          show (alUpdate st.conditionMap p _).map Prod.fst = st.conditionOrder
          rw [map_fst_alUpdate_mem _ _ _ (by rw [hmap]; exact hpmem), hmap]
        obtain ⟨ih1, ih2, ih3, ih4⟩ := ih (feedbackStep st fv) hmap₁
        refine ⟨ih1, ?_, fun t => ?_, ?_⟩
        · rw [ih2, hstep]
          simp only [List.filterMap_cons, eligPre_eq_some hsplit]
          simp only [firstSeenFrom, if_pos hpmem]
        · rw [ih3 t, hstep]
          simp only [condUpdates_cons_elig hsplit vs t]
          by_cases hpt : p = t
          · subst hpt
            rw [if_pos rfl]
            simp only [lookup_alUpdate_self, hl, List.foldl_cons]
          · rw [if_neg hpt]
            simp only [lookup_alUpdate_ne _ _ _ _ (Ne.symm hpt)]
            rfl
        · rw [ih4, hstep]
          simp [List.filterMap_cons, hsplit]

end HCPStatusCore

namespace HCPStatusCore

/- ## Flattener corollaries -/

theorem setCondField_type (c : Condition) (u : String × String) :
    (setCondField c u).type = c.type := by
  simp only [setCondField]
  split_ifs <;> rfl

theorem setCondField_status (c : Condition) (u : String × String) :
    (setCondField c u).status = if u.1 = "Status" then u.2 else c.status := by
  simp only [setCondField]
  split_ifs <;> rfl

theorem setCondField_reason (c : Condition) (u : String × String) :
    (setCondField c u).reason = if u.1 = "Reason" then u.2 else c.reason := by
  simp only [setCondField]
  split_ifs <;> simp_all

theorem setCondField_message (c : Condition) (u : String × String) :
    (setCondField c u).message = if u.1 = "Message" then u.2 else c.message := by
  simp only [setCondField]
  split_ifs <;> simp_all

theorem setCondField_ltt (c : Condition) (u : String × String) :
    (setCondField c u).lastTransitionTime =
      if u.1 = "LastTransitionTime" then u.2 else c.lastTransitionTime := by
  simp only [setCondField]
  split_ifs <;> simp_all

theorem type_foldl_setCondField (us : List (String × String)) (c : Condition) :
    (us.foldl setCondField c).type = c.type := by
  induction us generalizing c with
  | nil => rfl
  | cons u us ih => rw [List.foldl_cons, ih, setCondField_type]

theorem proj_foldl_setCondField (f : String) (proj : Condition → String)
    (hproj : ∀ c u, proj (setCondField c u) = if u.1 = f then u.2 else proj c)
    (us : List (String × String)) (c : Condition) :
    proj (us.foldl setCondField c)
      = ((us.filterMap fun u => if u.1 = f then some u.2 else none).getLast?).getD (proj c) := by
  induction us using List.reverseRecOn with
  | nil => simp
  | append_singleton us u ih =>
    rw [List.foldl_append, List.foldl_cons, List.foldl_nil, hproj, List.filterMap_append]
    by_cases hf : u.1 = f
    · simp [hf, List.getLast?_concat]
    · simp [hf, ih]

theorem cond_eq_of_fields {c₁ c₂ : Condition} (h1 : c₁.type = c₂.type)
    (h2 : c₁.status = c₂.status) (h3 : c₁.reason = c₂.reason)
    (h4 : c₁.message = c₂.message) (h5 : c₁.lastTransitionTime = c₂.lastTransitionTime) :
    c₁ = c₂ := by
  cases c₁
  cases c₂
  simp_all

/-- The condition accumulated for type `t` is the one built from the
last-seen value of each field. -/
theorem condFold_eq_condOfLast (vs : List FeedbackValue) (t : String) :
    (condUpdates vs t).foldl setCondField (freshCond t) = condOfLast vs t := by
  refine cond_eq_of_fields ?_ ?_ ?_ ?_ ?_
  · rw [type_foldl_setCondField]
    rfl
  · rw [proj_foldl_setCondField "Status" Condition.status setCondField_status]
    rfl
  · rw [proj_foldl_setCondField "Reason" Condition.reason setCondField_reason]
    rfl
  · rw [proj_foldl_setCondField "Message" Condition.message setCondField_message]
    rfl
  · rw [proj_foldl_setCondField "LastTransitionTime" Condition.lastTransitionTime setCondField_ltt]
    rfl

theorem mem_firstSeenFrom {x : String} (seen : List String) (l : List String) :
    x ∈ firstSeenFrom seen l ↔ x ∈ l ∧ x ∉ seen := by
  induction l generalizing seen with
  | nil => simp [firstSeenFrom]
  | cons t ts ih =>
    simp only [firstSeenFrom]
    by_cases hm : t ∈ seen
    · rw [if_pos hm, ih]
      constructor
      · exact fun ⟨h1, h2⟩ => ⟨List.mem_cons_of_mem t h1, h2⟩
      · rintro ⟨h1, h2⟩
        rcases List.mem_cons.mp h1 with rfl | h1
        · exact absurd hm h2
        · exact ⟨h1, h2⟩
    · rw [if_neg hm]
      simp only [List.mem_cons, ih, List.mem_cons, not_or]
      constructor
      · rintro (rfl | ⟨h1, h2, h3⟩)
        · exact ⟨Or.inl rfl, hm⟩
        · exact ⟨Or.inr h1, h3⟩
      · rintro ⟨rfl | h1, h2⟩
        · exact Or.inl rfl
        · by_cases hx : x = t
          · exact Or.inl hx
          · exact Or.inr ⟨h1, hx, h2⟩

theorem nodup_firstSeenFrom (seen : List String) (l : List String) :
    (firstSeenFrom seen l).Nodup := by
  induction l generalizing seen with
  | nil => exact List.nodup_nil
  | cons t ts ih =>
    simp only [firstSeenFrom]
    by_cases hm : t ∈ seen
    · rw [if_pos hm]
      exact ih seen
    · rw [if_neg hm]
      refine List.Nodup.cons ?_ (ih (t :: seen))
      intro hc
      exact ((mem_firstSeenFrom (t :: seen) ts).mp hc).2 (List.mem_cons_self t seen)

theorem condUpdates_ne_nil {vs : List FeedbackValue} {t : String}
    (h : t ∈ vs.filterMap fun x => eligPre x.name) : condUpdates vs t ≠ [] := by
  rw [List.mem_filterMap] at h
  obtain ⟨fv, hmem, hpre⟩ := h
  simp only [eligPre, Option.map_eq_some'] at hpre
  obtain ⟨⟨p, s⟩, hsplit, hp⟩ := hpre
  induction vs with
  | nil => simp at hmem
  | cons fv' vs ih =>
    rcases List.mem_cons.mp hmem with rfl | hmem'
    · rw [condUpdates_cons_elig hsplit, if_pos hp]
      simp
    · rcases hsplit' : eligSplit fv'.name with _ | ⟨p', s'⟩
      · rw [condUpdates_cons_inelig hsplit']
        exact ih hmem'
      · rw [condUpdates_cons_elig hsplit']
        by_cases hpt : p' = t
        · rw [if_pos hpt]
          simp
        · rw [if_neg hpt]
          exact ih hmem'

/-- The type sequence returned by the flattener: the distinct eligible
prefixes in first-appearance order. -/
theorem parseFeedbackValues_types (vs : List FeedbackValue) :
    (parseFeedbackValues vs).1.map Condition.type
      = firstSeen (vs.filterMap fun x => eligPre x.name) := by
  obtain ⟨h1, h2, h3, _⟩ := feedbackFold_char vs ⟨[], [], []⟩ rfl
  simp only [parseFeedbackValues, List.map_map]
  rw [h2]
  simp only [List.nil_append, firstSeen]
  refine (List.map_congr_left ?_).trans (List.map_id _)
  intro t ht
  have ht' : t ∈ vs.filterMap fun x => eligPre x.name :=
    ((mem_firstSeenFrom [] _).mp ht).1
  simp only [Function.comp_apply, id]
  rw [h3 t]
  simp only [lookup_nil]
  rcases hu : condUpdates vs t with _ | ⟨u, us⟩
  · exact absurd hu (condUpdates_ne_nil ht')
  · simp only [Option.getD_some]
    rw [← hu, type_foldl_setCondField]
    rfl

/-- The full condition sequence returned by the flattener: one condition
per distinct eligible prefix, fields built from last-seen values. -/
theorem parseFeedbackValues_conditions (vs : List FeedbackValue) :
    (parseFeedbackValues vs).1
      = (firstSeen (vs.filterMap fun x => eligPre x.name)).map (condOfLast vs) := by
  obtain ⟨h1, h2, h3, _⟩ := feedbackFold_char vs ⟨[], [], []⟩ rfl
  simp only [parseFeedbackValues]
  rw [h2]
  simp only [List.nil_append, firstSeen]
  refine List.map_congr_left ?_
  intro t ht
  have ht' : t ∈ vs.filterMap fun x => eligPre x.name :=
    ((mem_firstSeenFrom [] _).mp ht).1
  rw [h3 t]
  simp only [lookup_nil]
  rcases hu : condUpdates vs t with _ | ⟨u, us⟩
  · exact absurd hu (condUpdates_ne_nil ht')
  · simp only [Option.getD_some]
    rw [← hu, condFold_eq_condOfLast]

/-- The extras key set of the flattener: distinct non-condition names in
first-appearance order. -/
theorem parseFeedbackValues_extras_keys (vs : List FeedbackValue) :
    (parseFeedbackValues vs).2.map Prod.fst
      = firstSeen (vs.filterMap fun x => if eligSplit x.name = none then some x.name else none) := by
  obtain ⟨_, _, _, h4⟩ := feedbackFold_char vs ⟨[], [], []⟩ rfl
  simpa [parseFeedbackValues, firstSeen] using h4

end HCPStatusCore

namespace HCPStatusCore

/- ## Aggregate-sync parser characterization -/

theorem parseRFC3339_empty : parseRFC3339 "" = none := rfl

theorem if_gt_eq_max (cur t : Nat) : (if t > cur then t else cur) = max cur t := by
  split_ifs <;> omega

theorem syncStep_fst (acc : Bool × Bool × Nat) (c : SyncCondition) :
    (syncStep acc c).1 = if c.type = "Applied" then c.status == "True" else acc.1 := by
  simp only [syncStep]
  by_cases h2 : c.lastTransitionTime ≠ "" <;>
    rcases hp : parseRFC3339 c.lastTransitionTime with _ | t <;>
      by_cases h1 : c.type = "Applied" <;>
        by_cases h3 : c.type = "Available" <;>
          simp_all <;> split_ifs <;> rfl

theorem syncStep_snd (acc : Bool × Bool × Nat) (c : SyncCondition) :
    (syncStep acc c).2.1 = if c.type = "Available" then c.status == "True" else acc.2.1 := by
  simp only [syncStep]
  by_cases h2 : c.lastTransitionTime ≠ "" <;>
    rcases hp : parseRFC3339 c.lastTransitionTime with _ | t <;>
      by_cases h1 : c.type = "Applied" <;>
        by_cases h3 : c.type = "Available" <;>
          simp_all <;> split_ifs <;> rfl

theorem syncStep_time (acc : Bool × Bool × Nat) (c : SyncCondition) :
    (syncStep acc c).2.2 =
      match parseRFC3339 c.lastTransitionTime with
      | some t => max acc.2.2 t
      | none => acc.2.2 := by
  simp only [syncStep]
  by_cases h2 : c.lastTransitionTime = ""
  · rw [h2]
    simp [parseRFC3339_empty]
    split_ifs <;> rfl
  · rcases hp : parseRFC3339 c.lastTransitionTime with _ | t <;>
      by_cases h1 : c.type = "Applied" <;>
        by_cases h3 : c.type = "Available" <;>
          simp_all [if_gt_eq_max] <;> split_ifs <;> (try simp) <;> (try omega)

theorem syncFold_applied (l : List SyncCondition) (acc : Bool × Bool × Nat) :
    (l.foldl syncStep acc).1
      = (((l.filter fun c => c.type == "Applied").getLast?).map fun c => c.status == "True").getD
          acc.1 := by
  induction l using List.reverseRecOn with
  | nil => simp
  | append_singleton l c ih =>
    rw [List.foldl_append, List.foldl_cons, List.foldl_nil, syncStep_fst, List.filter_append]
    by_cases h : c.type = "Applied"
    · simp [h, List.getLast?_concat]
    · simp [h, ih]

theorem syncFold_available (l : List SyncCondition) (acc : Bool × Bool × Nat) :
    (l.foldl syncStep acc).2.1
      = (((l.filter fun c => c.type == "Available").getLast?).map fun c => c.status == "True").getD
          acc.2.1 := by
  induction l using List.reverseRecOn with
  | nil => simp
  | append_singleton l c ih =>
    rw [List.foldl_append, List.foldl_cons, List.foldl_nil, syncStep_snd, List.filter_append]
    by_cases h : c.type = "Available"
    · simp [h, List.getLast?_concat]
    · simp [h, ih]

theorem syncFold_time (l : List SyncCondition) (acc : Bool × Bool × Nat) :
    (l.foldl syncStep acc).2.2
      = (l.filterMap fun c => parseRFC3339 c.lastTransitionTime).foldl max acc.2.2 := by
  induction l using List.reverseRecOn with
  | nil => simp
  | append_singleton l c ih =>
    rw [List.foldl_append, List.foldl_cons, List.foldl_nil, syncStep_time, List.filterMap_append]
    rcases hp : parseRFC3339 c.lastTransitionTime with _ | t
    · simp [ih, hp]
    · simp [ih, hp]

/- ## Certificate parser characterization -/

theorem certReady_fold (l : List CertCondition) (r : Option Bool) :
    l.foldl (fun r c => if c.type = "Ready" then some (c.status == "True") else r) r
      = match (l.filter fun c => c.type == "Ready").getLast? with
        | some c => some (c.status == "True")
        | none => r := by
  induction l using List.reverseRecOn with
  | nil => simp
  | append_singleton l c ih =>
    rw [List.foldl_append, List.foldl_cons, List.foldl_nil, List.filter_append]
    by_cases h : c.type = "Ready"
    · simp [h, List.getLast?_concat]
    · simp [h, ih]

/- ## Control-plane parser characterization -/

theorem mainStep_cert (acc : MainAcc) (m : ManifestEntry) :
    (mainStep acc m).certificate =
      if m.resourceMeta.kind = "Certificate" then some ⟨none, 0, 0, []⟩
      else acc.certificate := by
  simp only [mainStep]
  by_cases h1 : m.resourceMeta.kind = "HostedCluster" <;>
    by_cases h2 : m.resourceMeta.kind = "Certificate" <;>
      simp_all

theorem mainStep_conditions (acc : MainAcc) (m : ManifestEntry) :
    (mainStep acc m).conditions =
      if m.resourceMeta.kind = "HostedCluster" then (parseFeedbackValues m.statusFeedbackValues).1
      else acc.conditions := by
  simp only [mainStep]
  by_cases h1 : m.resourceMeta.kind = "HostedCluster" <;>
    by_cases h2 : m.resourceMeta.kind = "Certificate" <;>
      simp_all

theorem mainStep_version (acc : MainAcc) (m : ManifestEntry) :
    (mainStep acc m).version =
      if m.resourceMeta.kind = "HostedCluster" then
        updateVersion acc.version (parseFeedbackValues m.statusFeedbackValues).2
      else acc.version := by
  simp only [mainStep]
  by_cases h1 : m.resourceMeta.kind = "HostedCluster" <;>
    by_cases h2 : m.resourceMeta.kind = "Certificate" <;>
      simp_all

theorem mainFold_cert (l : List ManifestEntry) (acc : MainAcc) :
    (l.foldl mainStep acc).certificate
      = if l.any (fun m => m.resourceMeta.kind == "Certificate") then some ⟨none, 0, 0, []⟩
        else acc.certificate := by
  induction l using List.reverseRecOn with
  | nil => simp
  | append_singleton l m ih =>
    rw [List.foldl_append, List.foldl_cons, List.foldl_nil, mainStep_cert, List.any_append]
    by_cases h : m.resourceMeta.kind = "Certificate"
    · simp [h]
    · simp [h, ih]

theorem mainFold_conditions (l : List ManifestEntry) (acc : MainAcc) :
    (l.foldl mainStep acc).conditions
      = match (l.filter fun m => m.resourceMeta.kind == "HostedCluster").getLast? with
        | some m => (parseFeedbackValues m.statusFeedbackValues).1
        | none => acc.conditions := by
  induction l using List.reverseRecOn with
  | nil => simp
  | append_singleton l m ih =>
    rw [List.foldl_append, List.foldl_cons, List.foldl_nil, mainStep_conditions,
      List.filter_append]
    by_cases h : m.resourceMeta.kind = "HostedCluster"
    · simp [h, List.getLast?_concat]
    · simp [h, ih]

theorem updateVersion_current (v : VersionInfo) (extras : List (String × String)) :
    (updateVersion v extras).current = (extras.lookup "Version-Current").getD v.current := by
  simp only [updateVersion]
  rcases extras.lookup "Version-Current" with _ | v1 <;>
    rcases extras.lookup "Version-Desired" with _ | v2 <;>
      rcases extras.lookup "Version-Status" with _ | v3 <;>
        rcases extras.lookup "Version-Image" with _ | v4 <;>
          rcases extras.lookup "Version-AvailableUpdates" with _ | v5 <;>
            (first | rfl | (simp only []; split_ifs <;> rfl))

theorem updateVersion_desired (v : VersionInfo) (extras : List (String × String)) :
    (updateVersion v extras).desired = (extras.lookup "Version-Desired").getD v.desired := by
  simp only [updateVersion]
  rcases extras.lookup "Version-Current" with _ | v1 <;>
    rcases extras.lookup "Version-Desired" with _ | v2 <;>
      rcases extras.lookup "Version-Status" with _ | v3 <;>
        rcases extras.lookup "Version-Image" with _ | v4 <;>
          rcases extras.lookup "Version-AvailableUpdates" with _ | v5 <;>
            (first | rfl | (simp only []; split_ifs <;> rfl))

theorem updateVersion_status (v : VersionInfo) (extras : List (String × String)) :
    (updateVersion v extras).status = (extras.lookup "Version-Status").getD v.status := by
  simp only [updateVersion]
  rcases extras.lookup "Version-Current" with _ | v1 <;>
    rcases extras.lookup "Version-Desired" with _ | v2 <;>
      rcases extras.lookup "Version-Status" with _ | v3 <;>
        rcases extras.lookup "Version-Image" with _ | v4 <;>
          rcases extras.lookup "Version-AvailableUpdates" with _ | v5 <;>
            (first | rfl | (simp only []; split_ifs <;> rfl))

theorem updateVersion_image (v : VersionInfo) (extras : List (String × String)) :
    (updateVersion v extras).image = (extras.lookup "Version-Image").getD v.image := by
  simp only [updateVersion]
  rcases extras.lookup "Version-Current" with _ | v1 <;>
    rcases extras.lookup "Version-Desired" with _ | v2 <;>
      rcases extras.lookup "Version-Status" with _ | v3 <;>
        rcases extras.lookup "Version-Image" with _ | v4 <;>
          rcases extras.lookup "Version-AvailableUpdates" with _ | v5 <;>
            (first | rfl | (simp only []; split_ifs <;> rfl))

theorem updateVersion_availableUpdates (v : VersionInfo) (extras : List (String × String)) :
    (updateVersion v extras).availableUpdates =
      match extras.lookup "Version-AvailableUpdates" with
      | some val => if val ≠ "" then splitComma val else v.availableUpdates
      | none => v.availableUpdates := by
  simp only [updateVersion]
  rcases extras.lookup "Version-Current" with _ | v1 <;>
    rcases extras.lookup "Version-Desired" with _ | v2 <;>
      rcases extras.lookup "Version-Status" with _ | v3 <;>
        rcases extras.lookup "Version-Image" with _ | v4 <;>
          rcases extras.lookup "Version-AvailableUpdates" with _ | v5 <;>
            (first | rfl | (simp only []; split_ifs <;> rfl))

end HCPStatusCore

namespace HCPStatusCore

/- ## Version-field folds of the control-plane parser -/

theorem mainFold_version_field (key : String) (proj : VersionInfo → String)
    (hproj : ∀ v extras, proj (updateVersion v extras) = ((extras.lookup key).getD (proj v)))
    (l : List ManifestEntry) (acc : MainAcc) :
    proj (l.foldl mainStep acc).version
      = (((l.filter fun m => m.resourceMeta.kind == "HostedCluster").filterMap
            (fun m => (parseFeedbackValues m.statusFeedbackValues).2.lookup key)).getLast?).getD
          (proj acc.version) := by
  induction l using List.reverseRecOn with
  | nil => simp
  | append_singleton l m ih =>
    rw [List.foldl_append, List.foldl_cons, List.foldl_nil, mainStep_version, List.filter_append]
    by_cases h : m.resourceMeta.kind = "HostedCluster"
    · rw [if_pos h]
      rw [hproj]
      rcases hv : (parseFeedbackValues m.statusFeedbackValues).2.lookup key with _ | val
      · simp [h, hv, ih]
      · simp [h, hv, List.getLast?_concat]
    · rw [if_neg h]
      simp [h, ih]

theorem mainFold_availableUpdates (l : List ManifestEntry) (acc : MainAcc) :
    (l.foldl mainStep acc).version.availableUpdates
      = match ((l.filter fun m => m.resourceMeta.kind == "HostedCluster").filterMap
            (fun m =>
              match (parseFeedbackValues m.statusFeedbackValues).2.lookup
                  "Version-AvailableUpdates" with
              | some v => if v ≠ "" then some v else none
              | none => none)).getLast? with
        | some v => splitComma v
        | none => acc.version.availableUpdates := by
  induction l using List.reverseRecOn with
  | nil => simp
  | append_singleton l m ih =>
    rw [List.foldl_append, List.foldl_cons, List.foldl_nil, mainStep_version, List.filter_append]
    by_cases h : m.resourceMeta.kind = "HostedCluster"
    · rw [if_pos h, updateVersion_availableUpdates]
      rcases hv : (parseFeedbackValues m.statusFeedbackValues).2.lookup
          "Version-AvailableUpdates" with _ | val
      · simp [h, hv, ih]
      · by_cases hne : val = ""
        · simp [h, hv, hne, ih]
        · simp [h, hv, hne, List.getLast?_concat]
    · rw [if_neg h]
      simp [h, ih]

/- ## Worker-pool parser characterization -/

theorem nodePools_fold (l : List ManifestEntry) (acc : List NodePoolStatus) :
    l.foldl
        (fun acc m =>
          if m.resourceMeta.kind ≠ "NodePool" then acc
          else acc ++ [mkNodePool m]) acc
      = acc ++ (l.filter fun m => m.resourceMeta.kind == "NodePool").map mkNodePool := by
  induction l generalizing acc with
  | nil => simp
  | cons m l ih =>
    rw [List.foldl_cons, List.filter_cons]
    by_cases h : m.resourceMeta.kind = "NodePool"
    · simp only [h]
      rw [if_neg (by simp), if_pos (by simp)]
      rw [ih]
      simp
    · rw [if_pos (by simpa using h), if_neg (by simpa using h)]
      exact ih acc

theorem mkNodePool_eq_npSpec (m : ManifestEntry) : mkNodePool m = npSpec m := by
  simp only [mkNodePool, npSpec]
  rcases h1 : (parseFeedbackValues m.statusFeedbackValues).2.lookup "Replicas" with _ | v
  · rcases h2 : (parseFeedbackValues m.statusFeedbackValues).2.lookup "Version" with _ | w <;>
      simp [h1, h2]
  · rcases ha : atoi v with _ | n <;>
      rcases h2 : (parseFeedbackValues m.statusFeedbackValues).2.lookup "Version" with _ | w <;>
        simp [h1, h2, ha]

/- ## Error characterization of the aggregator loops -/

/-- What the first aggregator loop computes, in one equation. -/
theorem parseSyncAll_char (keys : List String) (resources : List (String × RawDoc)) :
    parseSyncAll keys resources =
      match keys.find? (fun k => (lookupRaw resources k).asSync.isNone) with
      | some k =>
        .error ("failed to parse ManifestWork sync status for " ++ k ++ ": invalid JSON")
      | none =>
        .ok (keys.map fun k =>
          match (lookupRaw resources k).asSync with
          | some d => syncStatusOfDoc d
          | none => ⟨"", false, false, 0⟩) := by
  induction keys with
  | nil => rfl
  | cons key rest ih =>
    rcases hs : (lookupRaw resources key).asSync with _ | d
    · rw [List.find?_cons_of_pos _ (by simp [hs])]
      simp only [parseSyncAll, parseManifestWorkSyncStatus, hs]
      rw [String.append_assoc]
      rfl
    · rw [List.find?_cons_of_neg _ (by simp [hs])]
      simp only [parseSyncAll, parseManifestWorkSyncStatus, hs, ih]
      rcases hf : rest.find? (fun k => (lookupRaw resources k).asSync.isNone) with _ | k
      · simp [List.map_cons, hs]
      · simp

/-- What the third aggregator loop computes, in one equation. -/
theorem parsePoolsAll_char (keys : List String) (resources : List (String × RawDoc)) :
    parsePoolsAll keys resources =
      match keys.find? (fun k => (lookupRaw resources k).asPool.isNone) with
      | some k => .error ("failed to parse NodePool from " ++ k ++ ": invalid JSON")
      | none =>
        .ok (keys.flatMap fun k =>
          match (lookupRaw resources k).asPool with
          | some d => nodePoolsOfDoc d
          | none => []) := by
  induction keys with
  | nil => rfl
  | cons key rest ih =>
    rcases hs : (lookupRaw resources key).asPool with _ | d
    · rw [List.find?_cons_of_pos _ (by simp [hs])]
      simp only [parsePoolsAll, parseManifestWorkNodePools, hs]
      rw [String.append_assoc]
      rfl
    · rw [List.find?_cons_of_neg _ (by simp [hs])]
      simp only [parsePoolsAll, parseManifestWorkNodePools, hs, ih]
      rcases hf : rest.find? (fun k => (lookupRaw resources k).asPool.isNone) with _ | k
      · simp [List.flatMap_cons, hs]
      · simp

end HCPStatusCore

namespace HCPStatusCore

/- ## Claim theorems -/

/-- C4: for every feedback-value sequence, the condition types returned by
`parseFeedbackValues` are exactly the distinct prefixes obtained by
splitting each name at its first hyphen whose suffix is a recognized
condition field (Status, Reason, Message, LastTransitionTime) and whose
prefix is not excluded (Version), in order of first appearance in the
input. -/
theorem claim_C4 (vs : List FeedbackValue) :
    (parseFeedbackValues vs).1.map Condition.type
      = firstSeen (vs.filterMap fun x => eligPre x.name) :=
  parseFeedbackValues_types vs

/-- C3 counterexample: when `Available-Status` appears twice (values
`"True"` then `"False"`), the flattener keeps the last-seen value
`"False"`, not the first-seen value `"True"` claimed by the spec. -/
theorem claim_C3_counterexample :
    (parseFeedbackValues [⟨"Available-Status", ⟨"String", "True", 0⟩⟩,
        ⟨"Available-Status", ⟨"String", "False", 0⟩⟩]).1
      = [⟨"Available", "False", "", "", ""⟩]
    ∧ firstFieldVal [⟨"Available-Status", ⟨"String", "True", 0⟩⟩,
        ⟨"Available-Status", ⟨"String", "False", 0⟩⟩] "Available" "Status" = some "True" :=
  ⟨by decide, by decide⟩

/-- C3 amended: the flattener returns at most one Condition per type name
and, when the same condition field appears more than once, the last-seen
value is the one kept, without any error being raised (the flattener is a
total function). -/
theorem claim_C3_amended (vs : List FeedbackValue) :
    ((parseFeedbackValues vs).1.map Condition.type).Nodup
    ∧ (parseFeedbackValues vs).1
        = (firstSeen (vs.filterMap fun x => eligPre x.name)).map (condOfLast vs) := by
  constructor
  · rw [parseFeedbackValues_types]
    exact nodup_firstSeenFrom [] _
  · exact parseFeedbackValues_conditions vs

/-- C7 counterexample: an extras-only input with a repeated name yields an
extras mapping smaller than the input sequence. -/
theorem claim_C7_counterexample :
    (∀ fv ∈ ([⟨"Replicas", ⟨"Integer", "", 2⟩⟩, ⟨"Replicas", ⟨"Integer", "", 3⟩⟩] :
        List FeedbackValue), eligSplit fv.name = none)
    ∧ (parseFeedbackValues [⟨"Replicas", ⟨"Integer", "", 2⟩⟩,
        ⟨"Replicas", ⟨"Integer", "", 3⟩⟩]).1 = []
    ∧ (parseFeedbackValues [⟨"Replicas", ⟨"Integer", "", 2⟩⟩,
        ⟨"Replicas", ⟨"Integer", "", 3⟩⟩]).2.length = 1
    ∧ ([⟨"Replicas", ⟨"Integer", "", 2⟩⟩, ⟨"Replicas", ⟨"Integer", "", 3⟩⟩] :
        List FeedbackValue).length = 2 :=
  ⟨by decide, by decide, by decide, by decide⟩

/-- C7 amended: when no entry's name splits into a recognized condition
field, the flattener returns zero conditions and an extras mapping with
one entry per distinct input name. -/
theorem claim_C7_amended (vs : List FeedbackValue)
    (h : ∀ fv ∈ vs, eligSplit fv.name = none) :
    (parseFeedbackValues vs).1 = []
    ∧ (parseFeedbackValues vs).2.length = (firstSeen (vs.map FeedbackValue.name)).length := by
  have hpre : (vs.filterMap fun x => eligPre x.name) = [] := by
    induction vs with
    | nil => rfl
    | cons fv vs ih =>
      rw [List.filterMap_cons, eligPre_eq_none (h fv (List.mem_cons_self fv vs))]
      exact ih fun x hx => h x (List.mem_cons_of_mem fv hx)
  have hnames : (vs.filterMap fun x => if eligSplit x.name = none then some x.name else none)
      = vs.map FeedbackValue.name := by
    clear hpre
    induction vs with
    | nil => rfl
    | cons fv vs ih =>
      rw [List.filterMap_cons, if_pos (h fv (List.mem_cons_self fv vs)), List.map_cons,
        ih fun x hx => h x (List.mem_cons_of_mem fv hx)]
  constructor
  · rw [parseFeedbackValues_conditions, hpre]
    rfl
  · rw [← List.length_map (parseFeedbackValues vs).2 Prod.fst, parseFeedbackValues_extras_keys,
      hnames]

/-- C7 witness: a two-entry extras-only input with distinct names. -/
theorem claim_C7_witness :
    (∀ fv ∈ ([⟨"Replicas", ⟨"Integer", "", 2⟩⟩, ⟨"Version", ⟨"String", "4.1.0", 0⟩⟩] :
        List FeedbackValue), eligSplit fv.name = none)
    ∧ ((parseFeedbackValues [⟨"Replicas", ⟨"Integer", "", 2⟩⟩,
          ⟨"Version", ⟨"String", "4.1.0", 0⟩⟩]).1 = []
        ∧ (parseFeedbackValues [⟨"Replicas", ⟨"Integer", "", 2⟩⟩,
            ⟨"Version", ⟨"String", "4.1.0", 0⟩⟩]).2.length
          = (firstSeen (([⟨"Replicas", ⟨"Integer", "", 2⟩⟩,
              ⟨"Version", ⟨"String", "4.1.0", 0⟩⟩] :
              List FeedbackValue).map FeedbackValue.name)).length) :=
  ⟨by decide, claim_C7_amended _ (by decide)⟩

end HCPStatusCore

namespace HCPStatusCore

/-- C5 counterexample: a structurally valid sync document with two
conditions of type `Applied` (statuses `True` then `False`) has its
applied flag false although a condition of type `Applied` with status
`True` is present — the last matching condition wins, not "any". -/
theorem claim_C5_counterexample :
    (syncStatusOfDoc ⟨"n", [⟨"Applied", "True", ""⟩, ⟨"Applied", "False", ""⟩]⟩).applied = false
    ∧ ([⟨"Applied", "True", ""⟩, ⟨"Applied", "False", ""⟩] : List SyncCondition).any
        (fun c => c.type == "Applied" && c.status == "True") = true :=
  ⟨by decide, by decide⟩

/-- C5 amended: `parseManifestWorkSyncStatus` never errors on a
structurally valid document; the applied flag is true iff the last
condition of exactly type `Applied` has status `True` (false when none),
likewise available with `Available`; `LastSyncTime` is the maximum
RFC-3339-parseable `lastTransitionTime` over all conditions regardless of
type, unparsable strings silently skipped, zero when none parse. -/
theorem claim_C5_amended (d : SyncDoc) (o₁ : Option MainDoc) (o₂ : Option PoolDoc)
    (o₃ : Option CertDoc) :
    parseManifestWorkSyncStatus ⟨some d, o₁, o₂, o₃⟩ = .ok (syncStatusOfDoc d)
    ∧ (syncStatusOfDoc d).applied
        = (((d.conditions.filter fun c => c.type == "Applied").getLast?).map
            fun c => c.status == "True").getD false
    ∧ (syncStatusOfDoc d).available
        = (((d.conditions.filter fun c => c.type == "Available").getLast?).map
            fun c => c.status == "True").getD false
    ∧ (syncStatusOfDoc d).lastSyncTime
        = (d.conditions.filterMap fun c => parseRFC3339 c.lastTransitionTime).foldl max 0 := by
  refine ⟨rfl, ?_, ?_, ?_⟩
  · exact syncFold_applied d.conditions (false, false, 0)
  · exact syncFold_available d.conditions (false, false, 0)
  · exact syncFold_time d.conditions (false, false, 0)

/-- C6: `parseMainManifestWork` returns a non-nil certificate marker (with
unknown readiness, zero timestamps and no DNS names) exactly when some
manifest entry has kind `Certificate`; with no such entry the certificate
is nil — the two states are never collapsed. -/
theorem claim_C6 (d : MainDoc) :
    (mainMWOfDoc d).certificate
      = if d.manifests.any (fun m => m.resourceMeta.kind == "Certificate")
        then some ⟨none, 0, 0, []⟩ else none := by
  simp only [mainMWOfDoc]
  rw [mainFold_cert]

/-- C8: `parseCertificate` errors only on a structurally invalid document;
it copies the DNS names verbatim, sets the tri-state readiness only when a
condition of exactly type `Ready` is present (nil otherwise, never false),
and leaves expiry and renewal at zero when absent or unparsable. -/
theorem claim_C8 (d : CertDoc) (o₁ : Option SyncDoc) (o₂ : Option MainDoc)
    (o₃ : Option PoolDoc) :
    parseCertificate ⟨o₁, o₂, o₃, some d⟩ = .ok (certificateOfDoc d)
    ∧ parseCertificate ⟨o₁, o₂, o₃, none⟩ = .error "invalid JSON"
    ∧ (certificateOfDoc d).dnsNames = d.dnsNames
    ∧ (certificateOfDoc d).ready
        = ((d.conditions.filter fun c => c.type == "Ready").getLast?).map
            (fun c => c.status == "True")
    ∧ (certificateOfDoc d).notAfter = (parseRFC3339 d.notAfter).getD 0
    ∧ (certificateOfDoc d).renewalTime = (parseRFC3339 d.renewalTime).getD 0 := by
  refine ⟨rfl, rfl, rfl, ?_, ?_, ?_⟩
  · show d.conditions.foldl _ none = _
    rw [certReady_fold]
    rcases h : (d.conditions.filter fun c => c.type == "Ready").getLast? with _ | c <;>
      simp [h]
  · show (if d.notAfter ≠ "" then _ else 0) = _
    by_cases h : d.notAfter = ""
    · rw [if_neg (by simp [h]), h, parseRFC3339_empty]
      rfl
    · rw [if_pos h]
      rcases hp : parseRFC3339 d.notAfter with _ | t <;> simp [hp]
  · show (if d.renewalTime ≠ "" then _ else 0) = _
    by_cases h : d.renewalTime = ""
    · rw [if_neg (by simp [h]), h, parseRFC3339_empty]
      rfl
    · rw [if_pos h]
      rcases hp : parseRFC3339 d.renewalTime with _ | t <;> simp [hp]

/-- C9: `parseManifestWorkNodePools` maps each NodePool-kind entry to a
record whose replica count is the integer parse of the `Replicas` extra
(0 when the extra is absent or not an integer, with no error) and whose
version is the `Version` extra. -/
theorem claim_C9 (d : PoolDoc) (o₁ : Option SyncDoc) (o₂ : Option MainDoc)
    (o₃ : Option CertDoc) :
    parseManifestWorkNodePools ⟨o₁, o₂, some d, o₃⟩ = .ok (nodePoolsOfDoc d)
    ∧ nodePoolsOfDoc d
        = (d.manifests.filter fun m => m.resourceMeta.kind == "NodePool").map npSpec := by
  refine ⟨rfl, ?_⟩
  show d.manifests.foldl _ [] = _
  rw [nodePools_fold, List.nil_append]
  exact List.map_congr_left fun m _ => mkNodePool_eq_npSpec m

/-- C10 counterexample: with two HostedCluster entries, the second
providing `Version-AvailableUpdates` with the empty string, the field
keeps the first entry's split value rather than the value of the last
entry whose extras contain the key. -/
theorem claim_C10_counterexample :
    (mainMWOfDoc mainDocEx).version.availableUpdates = ["4.1", "4.2"]
    ∧ lastVersionVal mainDocEx "Version-AvailableUpdates" = some "" :=
  ⟨by decide, by decide⟩

/-- C10 amended: with several HostedCluster entries, the condition list is
that of the last such entry; `current`, `desired`, `status` and `image`
each hold the value from the last entry whose extras contain the key;
`availableUpdates` holds the comma-split value from the last entry whose
extras contain the key with a non-empty value. -/
theorem claim_C10_amended (d : MainDoc) :
    (mainMWOfDoc d).conditions
        = (((d.manifests.filter fun m => m.resourceMeta.kind == "HostedCluster").getLast?).map
            fun m => (parseFeedbackValues m.statusFeedbackValues).1).getD []
    ∧ (mainMWOfDoc d).version.current = (lastVersionVal d "Version-Current").getD ""
    ∧ (mainMWOfDoc d).version.desired = (lastVersionVal d "Version-Desired").getD ""
    ∧ (mainMWOfDoc d).version.status = (lastVersionVal d "Version-Status").getD ""
    ∧ (mainMWOfDoc d).version.image = (lastVersionVal d "Version-Image").getD ""
    ∧ (mainMWOfDoc d).version.availableUpdates
        = ((lastVersionValNe d "Version-AvailableUpdates").map splitComma).getD [] := by
  refine ⟨?_, ?_, ?_, ?_, ?_, ?_⟩
  · show (d.manifests.foldl mainStep ⟨[], ⟨"", "", "", "", []⟩, none⟩).conditions = _
    rw [mainFold_conditions]
    rcases h : (d.manifests.filter fun m => m.resourceMeta.kind == "HostedCluster").getLast?
      with _ | m <;> simp [h]
  · exact mainFold_version_field "Version-Current" VersionInfo.current
      updateVersion_current d.manifests ⟨[], ⟨"", "", "", "", []⟩, none⟩
  · exact mainFold_version_field "Version-Desired" VersionInfo.desired
      updateVersion_desired d.manifests ⟨[], ⟨"", "", "", "", []⟩, none⟩
  · exact mainFold_version_field "Version-Status" VersionInfo.status
      updateVersion_status d.manifests ⟨[], ⟨"", "", "", "", []⟩, none⟩
  · exact mainFold_version_field "Version-Image" VersionInfo.image
      updateVersion_image d.manifests ⟨[], ⟨"", "", "", "", []⟩, none⟩
  · show (d.manifests.foldl mainStep ⟨[], ⟨"", "", "", "", []⟩, none⟩).version.availableUpdates = _
    rw [mainFold_availableUpdates]
    have : lastVersionValNe d "Version-AvailableUpdates"
        = ((d.manifests.filter fun m => m.resourceMeta.kind == "HostedCluster").filterMap
            (fun m =>
              match (parseFeedbackValues m.statusFeedbackValues).2.lookup
                  "Version-AvailableUpdates" with
              | some v => if v ≠ "" then some v else none
              | none => none)).getLast? := rfl
    rw [← this]
    rcases h : lastVersionValNe d "Version-AvailableUpdates" with _ | v <;> simp [h]

end HCPStatusCore

namespace HCPStatusCore

/-- C1 counterexample: with two certificate-prefixed keys in the mapping,
two iteration orders of the same mapping yield different snapshots — the
ingress-certificate field depends on the hidden map-iteration order. -/
theorem claim_C1_counterexample :
    ([("certificate-a", certRawA), ("certificate-b", certRawB)] :
        List (String × RawDoc)).Perm
      [("certificate-b", certRawB), ("certificate-a", certRawA)]
    ∧ (([("certificate-a", certRawA), ("certificate-b", certRawB)] :
        List (String × RawDoc)).map Prod.fst).Nodup
    ∧ parseLiveResources [("certificate-a", certRawA), ("certificate-b", certRawB)] "x"
        ≠ parseLiveResources [("certificate-b", certRawB), ("certificate-a", certRawA)] "x" :=
  ⟨by decide, by decide, by decide⟩

/-- C1 amended: the aggregator is independent of the map-iteration order
(bit-identical outputs on any two iteration orders of the same mapping)
provided at most one key carries the certificate prefix; with two or more
such keys the ingress-certificate field may depend on the order. -/
theorem claim_C1_amended {l₁ l₂ : List (String × RawDoc)} (clusterID : String)
    (hperm : l₁.Perm l₂) (hnd : (l₁.map Prod.fst).Nodup)
    (hcert : (l₁.filter fun kv => hasPre "certificate-" kv.1).length ≤ 1) :
    parseLiveResources l₁ clusterID = parseLiveResources l₂ clusterID :=
  parseLiveResources_eq_of_perm clusterID hperm hnd hcert

/-- C1 witness: a two-key mapping (one ManifestWork, one certificate) in
two iteration orders. -/
theorem claim_C1_witness :
    (([("manifest_work-x", mwRawX), ("certificate-a", certRawA)] :
        List (String × RawDoc)).Perm
        [("certificate-a", certRawA), ("manifest_work-x", mwRawX)]
      ∧ (([("manifest_work-x", mwRawX), ("certificate-a", certRawA)] :
          List (String × RawDoc)).map Prod.fst).Nodup
      ∧ (([("manifest_work-x", mwRawX), ("certificate-a", certRawA)] :
          List (String × RawDoc)).filter fun kv => hasPre "certificate-" kv.1).length ≤ 1)
    ∧ parseLiveResources [("manifest_work-x", mwRawX), ("certificate-a", certRawA)] "x"
        = parseLiveResources [("certificate-a", certRawA), ("manifest_work-x", mwRawX)] "x" :=
  ⟨⟨by decide, by decide, by decide⟩,
    claim_C1_amended "x" (by decide) (by decide) (by decide)⟩

/-- C2 counterexample: when the main ManifestWork document fails to decode
(while its sync parse succeeds), the aggregation is aborted with an error
that does not name the failing document key `manifest_work-c`. -/
theorem claim_C2_counterexample :
    parseLiveResources [("manifest_work-c", mainFailRaw)] "c"
        = .error "failed to parse main ManifestWork: invalid JSON"
    ∧ strContains "failed to parse main ManifestWork: invalid JSON" "manifest_work-c"
        = false :=
  ⟨by decide, by decide⟩

/-- C2 amended: the aggregator returns an error exactly when the first
invoked parse failure exists, never a partial snapshot; the error names
the failing document key for the sync-status and NodePool parses, while a
main-ManifestWork or ingress-certificate failure yields a fixed message
without the key. -/
theorem claim_C2_amended (resources : List (String × RawDoc)) (clusterID : String)
    (e : String) :
    parseLiveResources resources clusterID = .error e
      ↔ firstErrorSpec resources clusterID = some e := by
  unfold parseLiveResources firstErrorSpec
  dsimp only
  rw [parseSyncAll_char]
  rcases hf1 : (manifestWorkKeysOf resources).find?
      (fun k => (lookupRaw resources k).asSync.isNone) with _ | k1
  · simp only [hf1]
    simp only [parseMainAll]
    rcases hm : resources.lookup ("manifest_work-" ++ clusterID) with _ | r
    · rw [parsePoolsAll_char]
      rcases hf2 : (manifestWorkKeysOf resources).find?
          (fun k => (lookupRaw resources k).asPool.isNone) with _ | k2
      · simp only [hf2, poolsErrSpec, certErrSpec, parseCertAll]
        rcases hfc : resources.find? (fun kv => hasPre "certificate-" kv.1) with _ | kv
        · simp [hfc]
        · rcases hac : kv.2.asCert with _ | dc
          · simp only [hfc, parseCertificate, hac, Option.isNone_none, if_pos]
            have : ("failed to parse ingress certificate: " ++ "invalid JSON")
                = "failed to parse ingress certificate: invalid JSON" := rfl
            rw [this]
            simp
          · simp [hfc, parseCertificate, hac]
      · simp only [hf2, poolsErrSpec]
        simp
    · rcases hmn : r.asMain with _ | dm
      · simp only [hm, parseMainManifestWork, hmn, Option.isNone_none, if_pos]
        have : ("failed to parse main ManifestWork: " ++ "invalid JSON")
            = "failed to parse main ManifestWork: invalid JSON" := rfl
        rw [this]
        simp
      · simp only [hm, parseMainManifestWork, hmn, Option.isNone_some]
        rw [parsePoolsAll_char]
        rcases hf2 : (manifestWorkKeysOf resources).find?
            (fun k => (lookupRaw resources k).asPool.isNone) with _ | k2
        · simp only [hf2, poolsErrSpec, certErrSpec, parseCertAll]
          rcases hfc : resources.find? (fun kv => hasPre "certificate-" kv.1) with _ | kv
          · simp [hfc]
          · rcases hac : kv.2.asCert with _ | dc
            · simp only [hfc, parseCertificate, hac, Option.isNone_none, if_pos]
              have : ("failed to parse ingress certificate: " ++ "invalid JSON")
                  = "failed to parse ingress certificate: invalid JSON" := rfl
              rw [this]
              simp
            · simp [hfc, parseCertificate, hac]
        · simp only [hf2, poolsErrSpec]
          simp
  · simp only [hf1]
    simp

end HCPStatusCore
